import Mathlib

/-!
Verification of the alert-polling core of `src/handlers/bots/trade_alerts.py`:
the filter merger (`_merge_filters`), the trade cursor tracker inside
`_poll_trades`, and the order membership tracker inside `_poll_orders`.

Modelling conventions (shallow embedding):
- Python float timestamps are modelled as `ℚ`; only their ordering matters to
  the tracker logic (NaN/inf never arise: `_parse_trade_timestamp` goes through
  `datetime`, whose `.timestamp()` is a finite real number).
- The Event Ordering Key `(event_timestamp_seconds, trade_id)` is `ℚ ×ₗ String`
  with Mathlib's lexicographic order, which coincides with Python's tuple
  comparison (timestamp primary, id tie-break).
- `_parse_trade_timestamp` / `_parse_order_timestamp` call into `datetime`
  (external library); their result is modelled as the record field
  `timestamp : Option ℚ` / `parsed_ts : Option ℚ`, `none` meaning the raw
  value was unparsable.  For orders, `parsed_ts` stands for
  `_parse_order_timestamp(order.get("created_at") or order.get("timestamp"))`.
- A poll cycle takes the fetch outcome as an `Except` value: `.error` models an
  exception raised by `get_bots_client`/`client.trading.*` (caught at
  `except Exception`), `.ok` the extracted `data` list.
- Python's stable in-place `list.sort(key=item[0])` is modelled by the stable
  `List.insertionSort` under the key relation; `sorted(set(...))` of strings is
  modelled by `sortedDedup` (sort after removing duplicates), which produces
  the same canonical sorted duplicate-free list.
- A cycle returns the updated channel state together with the list of
  notifications it attempts to send, in send order (a failed `send_message` is
  logged and skipped, so the attempted list is the emitted list).
-/

namespace TradeAlerts

/-- Event Ordering Key of a trade: `(event_timestamp_seconds, trade_id)` with
Python's lexicographic tuple order. -/
abbrev EventKey : Type := ℚ ×ₗ String

/-- Sort relation used for `parsed.sort(key=lambda item: item[0])` and
`new_orders.sort(key=lambda item: item[0])`: compare items by their key
(first component). -/
abbrev keyRel {α : Type} (a b : EventKey × α) : Prop := a.1 ≤ b.1

instance keyRelTotal {α : Type} : IsTotal (EventKey × α) keyRel :=
  ⟨fun a b => le_total a.1 b.1⟩

instance keyRelTrans {α : Type} : IsTrans (EventKey × α) keyRel :=
  ⟨fun _ _ _ h1 h2 => le_trans h1 h2⟩

/-- Python `sorted(<set of strings>)`: canonical sorted duplicate-free list of
the elements. -/
def sortedDedup (l : List String) : List String :=
  List.insertionSort (· ≤ ·) l.dedup

/-- The three optional filter keys of a subscription filter dict; a `none`
field models an absent key. -/
structure AlertFilter where
  account_names : Option (List String)
  connector_names : Option (List String)
  trading_pairs : Option (List String)
deriving DecidableEq

/-- `_merge_filters(existing, new)` (trade_alerts.py lines 83-93): per key the
sorted set union of both value lists, the key being omitted when the union is
empty; `none` arguments model passing `None` for a whole dict. -/
def mergeKey (a b : Option (List String)) : Option (List String) :=
  if a.getD [] ++ b.getD [] = [] then none
  else some (sortedDedup (a.getD [] ++ b.getD []))

def _merge_filters (existing new : Option AlertFilter) : AlertFilter :=
  let e := existing.getD ⟨none, none, none⟩
  let n := new.getD ⟨none, none, none⟩
  { account_names := mergeKey e.account_names n.account_names
    connector_names := mergeKey e.connector_names n.connector_names
    trading_pairs := mergeKey e.trading_pairs n.trading_pairs }

/-- A raw trade record as consumed by `_poll_trades`; only the fields the
tracker logic reads are modelled.  `timestamp` is the result of
`_parse_trade_timestamp(trade.get("timestamp"))` as a POSIX-seconds value,
`none` when parsing fails; `trade_id` is `str(trade.get("trade_id", ""))`. -/
structure TradeRecord where
  timestamp : Option ℚ
  trade_id : String
deriving DecidableEq

/-- The per-chat `trade_alerts` state dict: `enabled`, `filters`,
`last_seen_ts`, `last_seen_trade_id`; absent dict keys are `none`. -/
structure TradeState where
  enabled : Bool
  filters : Option AlertFilter
  last_seen_ts : Option ℚ
  last_seen_trade_id : Option String
deriving DecidableEq

/-- The parse-and-convert loop of `_poll_trades` (lines 293-300): keep the
records with a parsable timestamp, paired with their Event Ordering Key. -/
def parseBatch (trades : List TradeRecord) : List (EventKey × TradeRecord) :=
  trades.filterMap fun t => t.timestamp.map fun ts => (toLex (ts, t.trade_id), t)

/-- Default value handed to `getLastD` when reading `parsed[-1]` /
`new_trades[-1]`; never actually used since those lists are non-empty at the
read sites. -/
def dummyTrade : EventKey × TradeRecord := (toLex (0, ""), ⟨none, ""⟩)

/-- One `_poll_trades` cycle (lines 256-339) after a fetch whose outcome is
`fetch`, starting from channel state `st`.  Returns the updated state and the
list of notifications attempted, in send order, each paired with its Event
Ordering Key. -/
def _poll_trades (st : TradeState) (fetch : Except String (List TradeRecord)) :
    TradeState × List (EventKey × TradeRecord) :=
  match fetch with
  | .error _ => (st, [])
  | .ok trades =>
    if trades = [] then (st, [])
    else
      let parsed := parseBatch trades
      if parsed = [] then (st, [])
      else
        let sorted := List.insertionSort keyRel parsed
        match st.last_seen_ts with
        | none =>
          let latest := (sorted.getLastD dummyTrade).1
          ({ st with last_seen_ts := some (ofLex latest).1
                     last_seen_trade_id := some (ofLex latest).2 }, [])
        | some last_ts =>
          let last_key : EventKey := toLex (last_ts, st.last_seen_trade_id.getD "")
          let new_trades := sorted.filter fun item => decide (last_key < item.1)
          if new_trades = [] then
            let latest := (sorted.getLastD dummyTrade).1
            if last_key < latest then
              ({ st with last_seen_ts := some (ofLex latest).1
                         last_seen_trade_id := some (ofLex latest).2 }, [])
            else (st, [])
          else
            let latest := (new_trades.getLastD dummyTrade).1
            ({ st with last_seen_ts := some (ofLex latest).1
                       last_seen_trade_id := some (ofLex latest).2 }, new_trades)

/-- A raw order record as consumed by `_poll_orders`; only the fields read by
`_order_key` and the sort key are modelled.  String fields are the raw values
(`none` = key absent or `None`); `amount` is the `str()` rendering of the raw
amount.  `parsed_ts` models
`_parse_order_timestamp(order.get("created_at") or order.get("timestamp"))`. -/
structure OrderRecord where
  account_name : Option String
  connector_name : Option String
  order_id : Option String
  client_order_id : Option String
  trading_pair : Option String
  trade_type : Option String
  amount : Option String
  parsed_ts : Option ℚ
deriving DecidableEq

/-- Python `str(x or default)` on an optional string: `None` and `""` both fall
through to the default. -/
def strOr (a : Option String) (b : String) : String :=
  match a with
  | some s => if s = "" then b else s
  | none => b

/-- `_order_key(order)` (lines 445-454): the Order Identity Key, with the
degraded composite fallback when no order id is present. -/
def _order_key (o : OrderRecord) : String :=
  let account := strOr o.account_name ""
  let connector := strOr o.connector_name ""
  let oid := strOr o.order_id (strOr o.client_order_id "")
  if oid = "" then
    account ++ ":" ++ connector ++ ":" ++ strOr o.trading_pair "" ++ ":" ++
      strOr o.trade_type "" ++ ":" ++ strOr o.amount ""
  else
    account ++ ":" ++ connector ++ ":" ++ oid

/-- The per-chat `order_alerts` state dict: `enabled`, `filters`,
`initialized`, `seen_order_keys`; absent dict keys are `none`. -/
structure OrderState where
  enabled : Bool
  filters : Option AlertFilter
  initialized : Bool
  seen_order_keys : Option (List String)
deriving DecidableEq

/-- The sort key `(ts.timestamp() if ts else 0.0, key)` of line 502. -/
def orderSortKey (o : OrderRecord) : EventKey :=
  toLex (o.parsed_ts.getD 0, _order_key o)

/-- One `_poll_orders` cycle (lines 457-525) after a fetch whose outcome is
`fetch`, starting from channel state `st`.  Returns the updated state and the
list of notifications attempted, in send order, each paired with its sort
key. -/
def _poll_orders (st : OrderState) (fetch : Except String (List OrderRecord)) :
    OrderState × List (EventKey × OrderRecord) :=
  match fetch with
  | .error _ => (st, [])
  | .ok orders =>
    if orders = [] then (st, [])
    else if st.initialized = false then
      ({ st with initialized := true
                 seen_order_keys := some (sortedDedup (orders.map _order_key)) }, [])
    else
      let seen := st.seen_order_keys.getD []
      let current_keys := orders.map _order_key
      let new_orders := orders.filterMap fun o =>
        if _order_key o ∈ seen then none else some (orderSortKey o, o)
      if new_orders = [] then
        ({ st with seen_order_keys := some (sortedDedup current_keys) }, [])
      else
        let sorted_new := List.insertionSort keyRel new_orders
        let final_keys := current_keys ++ sorted_new.map fun item => _order_key item.2
        ({ st with seen_order_keys := some (sortedDedup final_keys) }, sorted_new)

/-- A sequence of trade poll cycles: thread the state through the list of
fetch outcomes, collecting each cycle's emission list. -/
def runTrades : TradeState → List (Except String (List TradeRecord)) →
    TradeState × List (List (EventKey × TradeRecord))
  | st, [] => (st, [])
  | st, f :: fs =>
    let step := _poll_trades st f
    let rest := runTrades step.1 fs
    (rest.1, step.2 :: rest.2)

/-- The trade cursor `(last_seen_ts, last_seen_trade_id)` of a channel state as
an Event Ordering Key, `none` when `last_seen_ts` is absent; the id component
defaults to `""` exactly as `state.get("last_seen_trade_id", "")` does. -/
def cursorOf (st : TradeState) : Option EventKey :=
  st.last_seen_ts.map fun t => toLex (t, st.last_seen_trade_id.getD "")

/-- Order on optional cursors: an absent cursor is below everything, a present
cursor never decays to absent and can only grow. -/
def cursorLe : Option EventKey → Option EventKey → Prop
  | none, _ => True
  | some a, b => ∃ c, b = some c ∧ a ≤ c

/-- What the spec asserts of one trade poll cycle against cursor `c` (spec
§4.2 steps 3-5): the emitted notifications carry ascending Event Ordering
Keys; they are exactly the validly-parsed fetched records whose key exceeds
`c`; and when anything is emitted the final cursor is the key of the last
emitted record. -/
def TradeEmissionSpec (st : TradeState) (batch : List TradeRecord) (c : EventKey) : Prop :=
  ((_poll_trades st (.ok batch)).2.map Prod.fst).Sorted (· ≤ ·) ∧
  ((_poll_trades st (.ok batch)).2).Perm
    ((parseBatch batch).filter fun item => decide (c < item.1)) ∧
  (∀ p ∈ (_poll_trades st (.ok batch)).2, c < p.1) ∧
  ((_poll_trades st (.ok batch)).2 ≠ [] →
    cursorOf (_poll_trades st (.ok batch)).1 =
      some (((_poll_trades st (.ok batch)).2.getLastD dummyTrade).1))

/-- What the spec asserts of one merged filter key `r` obtained from value
lists `x` and `y`: a sorted duplicate-free list holding exactly the union of
the two value sets, absent exactly when that union is empty. -/
def filterKeySpec (x y r : Option (List String)) : Prop :=
  (r.getD []).Sorted (· ≤ ·) ∧ (r.getD []).Nodup ∧
  (∀ s, s ∈ r.getD [] ↔ s ∈ x.getD [] ∨ s ∈ y.getD []) ∧
  (r = none ↔ x.getD [] = [] ∧ y.getD [] = [])

/-- C7: a poll cycle (of either kind) whose fetch raises leaves the channel
state untouched — cursor, seen keys, initialized flag, filters and enabled
flag included — and emits no notification. -/
theorem poll_fetch_failure_frame :
    ∀ (ts : TradeState) (os : OrderState) (e e' : String),
      _poll_trades ts (.error e) = (ts, []) ∧ _poll_orders os (.error e') = (os, []) :=
  fun _ _ _ _ => ⟨rfl, rfl⟩

/-- C10: a poll cycle (of either kind) whose fetch succeeds with an empty batch
returns immediately with the whole channel state unchanged: in particular an
uninitialized order channel stays uninitialized with no `seen_order_keys`
created, and an initialized channel's key set is not cleared. -/
theorem poll_empty_batch_frame :
    ∀ (ts : TradeState) (os : OrderState),
      _poll_trades ts (.ok []) = (ts, []) ∧ _poll_orders os (.ok []) = (os, []) :=
  fun _ _ => ⟨rfl, rfl⟩

lemma getLastD_mem {α : Type} : ∀ (l : List α) (d : α), l ≠ [] → l.getLastD d ∈ l
  | [], _, h => absurd rfl h
  | a :: t, d, _ => by
    rw [List.getLastD_cons]
    cases t with
    | nil => simp
    | cons b t2 => exact List.mem_cons_of_mem a (getLastD_mem (b :: t2) a (by simp))

lemma pairwise_le_getLastD {α : Type} :
    ∀ (l : List (EventKey × α)) (d : EventKey × α), l.Pairwise keyRel →
      ∀ x ∈ l, x.1 ≤ (l.getLastD d).1
  | [], _, _, _, hx => absurd hx (by simp)
  | a :: t, d, h, x, hx => by
    rw [List.getLastD_cons]
    rcases List.mem_cons.mp hx with rfl | hxt
    · cases t with
      | nil => simp
      | cons b t2 =>
        exact (List.pairwise_cons.mp h).1 _ (getLastD_mem (b :: t2) x (by simp))
    · exact pairwise_le_getLastD t a (List.pairwise_cons.mp h).2 x hxt

lemma sortedDedup_sorted (l : List String) : (sortedDedup l).Sorted (· ≤ ·) :=
  List.sorted_insertionSort _ _

lemma sortedDedup_nodup (l : List String) : (sortedDedup l).Nodup :=
  (List.perm_insertionSort _ _).symm.nodup (List.nodup_dedup l)

lemma mem_sortedDedup {s : String} {l : List String} : s ∈ sortedDedup l ↔ s ∈ l :=
  ((List.perm_insertionSort _ _).mem_iff).trans List.mem_dedup

lemma sortedDedup_eq_of_mem_iff {l₁ l₂ : List String}
    (h : ∀ s, s ∈ l₁ ↔ s ∈ l₂) : sortedDedup l₁ = sortedDedup l₂ :=
  List.eq_of_perm_of_sorted
    ((List.perm_ext_iff_of_nodup (sortedDedup_nodup l₁) (sortedDedup_nodup l₂)).mpr
      fun a => mem_sortedDedup.trans ((h a).trans mem_sortedDedup.symm))
    (sortedDedup_sorted l₁) (sortedDedup_sorted l₂)

lemma sortedDedup_eq_nil_iff {l : List String} : sortedDedup l = [] ↔ l = [] := by
  constructor
  · intro h
    by_contra hne
    rcases List.exists_mem_of_ne_nil l hne with ⟨x, hx⟩
    have hmem := mem_sortedDedup.mpr hx
    simp [h] at hmem
  · intro h; subst h; rfl

lemma mergeKey_comm (a b : Option (List String)) : mergeKey a b = mergeKey b a := by
  unfold mergeKey
  by_cases h : a.getD [] ++ b.getD [] = []
  · have h' : b.getD [] ++ a.getD [] = [] := by
      rcases List.append_eq_nil.mp h with ⟨h1, h2⟩; simp [h1, h2]
    rw [if_pos h, if_pos h']
  · have h' : ¬b.getD [] ++ a.getD [] = [] := fun hc => by
      rcases List.append_eq_nil.mp hc with ⟨h1, h2⟩; exact h (by simp [h1, h2])
    rw [if_neg h, if_neg h']
    refine congrArg some (sortedDedup_eq_of_mem_iff fun s => ?_)
    simp only [List.mem_append]
    exact or_comm

lemma mergeKey_absorb_right (a b : Option (List String)) :
    mergeKey (mergeKey a b) b = mergeKey a b := by
  unfold mergeKey
  by_cases h : a.getD [] ++ b.getD [] = []
  · rcases List.append_eq_nil.mp h with ⟨_, h2⟩
    rw [if_pos h]
    simp [h2]
  · rw [if_neg h]
    have hsd : ¬sortedDedup (a.getD [] ++ b.getD []) ++ b.getD [] = [] := by
      intro hc
      rcases List.append_eq_nil.mp hc with ⟨h1, _⟩
      exact h (sortedDedup_eq_nil_iff.mp h1)
    simp only [Option.getD_some]
    rw [if_neg hsd]
    refine congrArg some (sortedDedup_eq_of_mem_iff fun s => ?_)
    simp only [List.mem_append, mem_sortedDedup]
    tauto

lemma mergeKey_spec (x y : Option (List String)) : filterKeySpec x y (mergeKey x y) := by
  unfold filterKeySpec mergeKey
  by_cases h : x.getD [] ++ y.getD [] = []
  · rcases List.append_eq_nil.mp h with ⟨h1, h2⟩
    rw [if_pos h]
    exact ⟨by simp, by simp, fun s => by simp [h1, h2], by simp [h1, h2]⟩
  · rw [if_neg h]
    simp only [Option.getD_some]
    refine ⟨sortedDedup_sorted _, sortedDedup_nodup _, ?_, ?_⟩
    · intro s
      rw [mem_sortedDedup, List.mem_append]
    · constructor
      · intro hc; exact absurd hc (Option.some_ne_none _)
      · rintro ⟨h1, h2⟩
        exact absurd (by simp [h1, h2] : x.getD [] ++ y.getD [] = []) h

/-- C6: `_merge_filters` yields, for each of the three filter keys, the sorted
duplicate-free union of the two value sets, omitting a key whose union is
empty; it is commutative, and idempotent in the sense
`merge(merge(a,b), b) = merge(a,b)`. -/
theorem merge_filters_union_comm_idem :
    ∀ a b : AlertFilter,
      filterKeySpec a.account_names b.account_names
        (_merge_filters (some a) (some b)).account_names ∧
      filterKeySpec a.connector_names b.connector_names
        (_merge_filters (some a) (some b)).connector_names ∧
      filterKeySpec a.trading_pairs b.trading_pairs
        (_merge_filters (some a) (some b)).trading_pairs ∧
      _merge_filters (some a) (some b) = _merge_filters (some b) (some a) ∧
      _merge_filters (some (_merge_filters (some a) (some b))) (some b) =
        _merge_filters (some a) (some b) := by
  intro a b
  refine ⟨mergeKey_spec _ _, mergeKey_spec _ _, mergeKey_spec _ _, ?_, ?_⟩
  · simp only [_merge_filters, Option.getD_some, AlertFilter.mk.injEq]
    exact ⟨mergeKey_comm _ _, mergeKey_comm _ _, mergeKey_comm _ _⟩
  · simp only [_merge_filters, Option.getD_some, AlertFilter.mk.injEq]
    exact ⟨mergeKey_absorb_right _ _, mergeKey_absorb_right _ _,
      mergeKey_absorb_right _ _⟩

lemma cursorLe_refl (c : Option EventKey) : cursorLe c c := by
  cases c with
  | none => trivial
  | some a => exact ⟨a, rfl, le_refl a⟩

lemma cursorLe_trans {a b c : Option EventKey} (h1 : cursorLe a b) (h2 : cursorLe b c) :
    cursorLe a c := by
  cases a with
  | none => trivial
  | some x =>
    obtain ⟨y, rfl, hxy⟩ := h1
    obtain ⟨z, hz, hyz⟩ := h2
    exact ⟨z, hz, le_trans hxy hyz⟩

lemma emits_gt {st : TradeState} {f : Except String (List TradeRecord)}
    {st' : TradeState} {E : List (EventKey × TradeRecord)}
    (heq : _poll_trades st f = (st', E)) :
    ∀ p ∈ E, ∃ c, cursorOf st = some c ∧ c < p.1 := by
  intro p hp
  cases f with
  | error e =>
    injection heq with h1 h2
    subst h2
    cases hp
  | ok trades =>
    simp only [_poll_trades] at heq
    split at heq
    · injection heq with h1 h2; subst h2; cases hp
    · split at heq
      · injection heq with h1 h2; subst h2; cases hp
      · split at heq
        · injection heq with h1 h2; subst h2; cases hp
        next last_ts hcur =>
          split at heq
          · split at heq
            · injection heq with h1 h2; subst h2; cases hp
            · injection heq with h1 h2; subst h2; cases hp
          · injection heq with h1 h2
            subst h2
            rcases List.mem_filter.mp hp with ⟨_, hdec⟩
            refine ⟨toLex (last_ts, st.last_seen_trade_id.getD ""), ?_, of_decide_eq_true hdec⟩
            simp [cursorOf, hcur]

lemma emits_le_final {st : TradeState} {f : Except String (List TradeRecord)}
    {st' : TradeState} {E : List (EventKey × TradeRecord)}
    (heq : _poll_trades st f = (st', E)) :
    ∀ p ∈ E, ∃ c, cursorOf st' = some c ∧ p.1 ≤ c := by
  intro p hp
  cases f with
  | error e =>
    injection heq with h1 h2
    subst h2
    cases hp
  | ok trades =>
    simp only [_poll_trades] at heq
    split at heq
    · injection heq with h1 h2; subst h2; cases hp
    · split at heq
      · injection heq with h1 h2; subst h2; cases hp
      · split at heq
        · injection heq with h1 h2; subst h2; cases hp
        next last_ts hcur =>
          split at heq
          · split at heq
            · injection heq with h1 h2; subst h2; cases hp
            · injection heq with h1 h2; subst h2; cases hp
          · injection heq with h1 h2
            subst h1
            subst h2
            have hpw : (List.filter
                (fun item => decide (toLex (last_ts, st.last_seen_trade_id.getD "") < item.1))
                (List.insertionSort keyRel (parseBatch trades))).Pairwise keyRel :=
              (List.sorted_insertionSort keyRel (parseBatch trades)).filter _
            exact ⟨_, by simp [cursorOf], pairwise_le_getLastD _ dummyTrade hpw p hp⟩

lemma cursor_mono {st : TradeState} {f : Except String (List TradeRecord)}
    {st' : TradeState} {E : List (EventKey × TradeRecord)}
    (heq : _poll_trades st f = (st', E)) :
    cursorLe (cursorOf st) (cursorOf st') := by
  cases f with
  | error e =>
    injection heq with h1 h2
    subst h1
    exact cursorLe_refl _
  | ok trades =>
    simp only [_poll_trades] at heq
    split at heq
    · injection heq with h1 h2; subst h1; exact cursorLe_refl _
    · split at heq
      · injection heq with h1 h2; subst h1; exact cursorLe_refl _
      · split at heq
        next hcur =>
          injection heq with h1 h2
          subst h1
          have hnone : cursorOf st = none := by simp [cursorOf, hcur]
          rw [hnone]
          exact trivial
        next last_ts hcur =>
          have hc : cursorOf st = some (toLex (last_ts, st.last_seen_trade_id.getD "")) := by
            simp [cursorOf, hcur]
          split at heq
          · split at heq
            next hlt =>
              injection heq with h1 h2
              subst h1
              rw [hc]
              exact ⟨_, by simp [cursorOf], le_of_lt hlt⟩
            · injection heq with h1 h2
              subst h1
              exact cursorLe_refl _
          next hne =>
            injection heq with h1 h2
            subst h1
            have hlast : (List.filter
                  (fun item => decide (toLex (last_ts, st.last_seen_trade_id.getD "") < item.1))
                  (List.insertionSort keyRel (parseBatch trades))).getLastD dummyTrade ∈
                List.filter
                  (fun item => decide (toLex (last_ts, st.last_seen_trade_id.getD "") < item.1))
                  (List.insertionSort keyRel (parseBatch trades)) :=
              getLastD_mem _ _ hne
            have hlt := of_decide_eq_true (List.mem_filter.mp hlast).2
            rw [hc]
            exact ⟨_, by simp [cursorOf], le_of_lt hlt⟩

lemma run_cursor_mono :
    ∀ (fs : List (Except String (List TradeRecord))) (st : TradeState),
      cursorLe (cursorOf st) (cursorOf (runTrades st fs).1)
  | [], _ => cursorLe_refl _
  | f :: fs, st =>
    cursorLe_trans (cursor_mono rfl) (run_cursor_mono fs (_poll_trades st f).1)

lemma run_future_gt :
    ∀ (fs : List (Except String (List TradeRecord))) (st : TradeState) (c : EventKey),
      cursorOf st = some c → ∀ F ∈ (runTrades st fs).2, ∀ q ∈ F, c < q.1
  | [], _, _, _, _, hF => absurd hF (by simp [runTrades])
  | f :: fs, st, c, hc, F, hF => by
    intro q hq
    rcases List.mem_cons.mp
        (show F ∈ (_poll_trades st f).2 :: (runTrades (_poll_trades st f).1 fs).2 from hF)
      with rfl | hrest
    · obtain ⟨c0, hc0, hlt⟩ := emits_gt rfl q hq
      rw [hc] at hc0
      have hcc : c = c0 := Option.some.inj hc0
      rw [hcc]
      exact hlt
    · have hmono := cursor_mono (rfl : _poll_trades st f = _)
      rw [hc] at hmono
      obtain ⟨c1, hc1, hle⟩ :
          ∃ c1, cursorOf (_poll_trades st f).1 = some c1 ∧ c ≤ c1 := hmono
      exact lt_of_le_of_lt hle
        (run_future_gt fs (_poll_trades st f).1 c1 hc1 F hrest q hq)

lemma run_pairwise :
    ∀ (fs : List (Except String (List TradeRecord))) (st : TradeState),
      List.Pairwise (fun E F => ∀ p ∈ E, ∀ q ∈ F, p.1 ≠ q.1) (runTrades st fs).2
  | [], st => by simp [runTrades]
  | f :: fs, st => by
    show List.Pairwise _
      ((_poll_trades st f).2 :: (runTrades (_poll_trades st f).1 fs).2)
    refine List.Pairwise.cons ?_ (run_pairwise fs (_poll_trades st f).1)
    intro F hF p hp q hq
    obtain ⟨c1, hc1, hle⟩ := emits_le_final rfl p hp
    have hlt := run_future_gt fs (_poll_trades st f).1 c1 hc1 F hF q hq
    exact ne_of_lt (lt_of_le_of_lt hle hlt)

/-- C2: in every trade poll cycle the cursor `(last_seen_ts, last_seen_trade_id)`
after the cycle is at least the cursor before it under the lexicographic Event
Ordering Key order (an absent cursor counting as bottom and never reappearing),
and hence along any sequence of poll cycles the cursor is non-decreasing. -/
theorem trade_cursor_monotone :
    (∀ (st : TradeState) (f : Except String (List TradeRecord)),
        cursorLe (cursorOf st) (cursorOf (_poll_trades st f).1)) ∧
    (∀ (st : TradeState) (fs : List (Except String (List TradeRecord))),
        cursorLe (cursorOf st) (cursorOf (runTrades st fs).1)) :=
  ⟨fun _ _ => cursor_mono rfl, fun st fs => run_cursor_mono fs st⟩

/-- C1: a trade is emitted in a cycle only when the channel has a cursor and
the trade's Event Ordering Key is strictly above it; the cycle's final cursor
is at least every emitted key; and consequently, across any sequence of poll
cycles, no Event Ordering Key is ever emitted in two distinct cycles. -/
theorem trade_no_duplicate_emission :
    (∀ (st : TradeState) (f : Except String (List TradeRecord)),
        ∀ p ∈ (_poll_trades st f).2, ∃ c, cursorOf st = some c ∧ c < p.1) ∧
    (∀ (st : TradeState) (f : Except String (List TradeRecord)),
        ∀ p ∈ (_poll_trades st f).2,
          ∃ c, cursorOf (_poll_trades st f).1 = some c ∧ p.1 ≤ c) ∧
    (∀ (st : TradeState) (fs : List (Except String (List TradeRecord))),
        List.Pairwise (fun E F => ∀ p ∈ E, ∀ q ∈ F, p.1 ≠ q.1) (runTrades st fs).2) :=
  ⟨fun _ _ => emits_gt rfl, fun _ _ => emits_le_final rfl,
    fun st fs => run_pairwise fs st⟩

/-- Witness for C1 at a concrete input: state with cursor `(100, "t1")`, fetch
returning one trade with key `(101, "t2")`; that trade is emitted and the
first conjunct yields a cursor strictly below its key. -/
theorem trade_no_duplicate_emission_witness :
    ∃ c, cursorOf ⟨true, none, some 100, some "t1"⟩ = some c ∧
      c < toLex ((101 : ℚ), "t2") :=
  trade_no_duplicate_emission.1 ⟨true, none, some 100, some "t1"⟩
    (.ok [⟨some 101, "t2"⟩]) (toLex ((101 : ℚ), "t2"), ⟨some 101, "t2"⟩) (by decide)

/-- C3: on a first poll (no cursor) whose batch has at least one record with a
parsable timestamp, nothing is emitted and the cursor is set to the maximum
Event Ordering Key among the validly-parsed fetched records. -/
theorem trade_bootstrap_suppression (st : TradeState) (batch : List TradeRecord)
    (h1 : st.last_seen_ts = none) (h2 : parseBatch batch ≠ []) :
    (_poll_trades st (.ok batch)).2 = [] ∧
    ∃ m, cursorOf (_poll_trades st (.ok batch)).1 = some m ∧
      m ∈ (parseBatch batch).map Prod.fst ∧
      ∀ k ∈ (parseBatch batch).map Prod.fst, k ≤ m := by
  have hb : batch ≠ [] := fun hnil => h2 (by simp [hnil, parseBatch])
  rcases hres : _poll_trades st (.ok batch) with ⟨st', E⟩
  simp only [_poll_trades, if_neg hb, if_neg h2, h1] at hres
  injection hres with hst hE
  subst hst
  subst hE
  have hperm := List.perm_insertionSort keyRel (parseBatch batch)
  have hsne : List.insertionSort keyRel (parseBatch batch) ≠ [] := by
    intro hs
    rw [hs] at hperm
    exact h2 hperm.symm.eq_nil
  refine ⟨rfl, ((List.insertionSort keyRel (parseBatch batch)).getLastD dummyTrade).1,
    by simp [cursorOf], ?_, ?_⟩
  · exact List.mem_map_of_mem Prod.fst
      (hperm.mem_iff.mp (getLastD_mem _ dummyTrade hsne))
  · intro k hk
    rcases List.mem_map.mp hk with ⟨x, hx, rfl⟩
    exact pairwise_le_getLastD _ dummyTrade
      (List.sorted_insertionSort keyRel (parseBatch batch)) x (hperm.mem_iff.mpr hx)

/-- Witness for C3: cursorless state, batch of one unparsable record and one
valid record with key `(100, "t1")`; the poll emits nothing and the cursor
becomes the maximum valid key. -/
theorem trade_bootstrap_suppression_witness :
    parseBatch [⟨none, "bad"⟩, ⟨some 100, "t1"⟩] ≠ [] ∧
    ((_poll_trades ⟨true, none, none, none⟩
        (.ok [⟨none, "bad"⟩, ⟨some 100, "t1"⟩])).2 = [] ∧
      ∃ m, cursorOf (_poll_trades ⟨true, none, none, none⟩
          (.ok [⟨none, "bad"⟩, ⟨some 100, "t1"⟩])).1 = some m ∧
        m ∈ (parseBatch [⟨none, "bad"⟩, ⟨some 100, "t1"⟩]).map Prod.fst ∧
        ∀ k ∈ (parseBatch [⟨none, "bad"⟩, ⟨some 100, "t1"⟩]).map Prod.fst, k ≤ m) :=
  ⟨by decide, trade_bootstrap_suppression ⟨true, none, none, none⟩
    [⟨none, "bad"⟩, ⟨some 100, "t1"⟩] rfl (by decide)⟩

/-- C8: in a trade poll cycle with a present cursor, the records with key
strictly above the cursor are exactly the ones emitted, in ascending Event
Ordering Key order, and after a non-empty emission the cursor equals the key
of the last emitted record. -/
theorem trade_emission_order (st : TradeState) (batch : List TradeRecord)
    (last_ts : ℚ) (h : st.last_seen_ts = some last_ts) :
    TradeEmissionSpec st batch (toLex (last_ts, st.last_seen_trade_id.getD "")) := by
  unfold TradeEmissionSpec
  rcases hres : _poll_trades st (.ok batch) with ⟨st', E⟩
  simp only [_poll_trades] at hres
  split at hres
  next hb =>
    injection hres with hst hE
    subst hst
    subst hE
    subst hb
    exact ⟨by simp, by simp [parseBatch], by simp, fun hc => absurd rfl hc⟩
  next hb =>
    split at hres
    next hp2 =>
      injection hres with hst hE
      subst hst
      subst hE
      rw [hp2]
      exact ⟨by simp, by simp, by simp, fun hc => absurd rfl hc⟩
    next hp2 =>
      split at hres
      next hcur => rw [h] at hcur; cases hcur
      next last_ts2 hcur =>
        rw [h] at hcur
        injection hcur with hll
        subst hll
        split at hres
        next hnt =>
          have hfnil : (parseBatch batch).filter
              (fun item => decide (toLex (last_ts, st.last_seen_trade_id.getD "") < item.1)) = [] := by
            have hpf := (List.perm_insertionSort keyRel (parseBatch batch)).symm.filter
              (fun item => decide (toLex (last_ts, st.last_seen_trade_id.getD "") < item.1))
            rw [hnt] at hpf
            exact hpf.eq_nil
          split at hres
          · injection hres with hst hE
            subst hst
            subst hE
            exact ⟨by simp, by rw [hfnil], by simp, fun hc => absurd rfl hc⟩
          · injection hres with hst hE
            subst hst
            subst hE
            exact ⟨by simp, by rw [hfnil], by simp, fun hc => absurd rfl hc⟩
        next hnt =>
          injection hres with hst hE
          subst hst
          subst hE
          refine ⟨?_, ?_, ?_, fun _ => by simp [cursorOf]⟩
          · exact List.pairwise_map.mpr
              ((List.sorted_insertionSort keyRel (parseBatch batch)).filter _)
          · exact (List.perm_insertionSort keyRel (parseBatch batch)).filter _
          · intro p hp
            exact of_decide_eq_true (List.mem_filter.mp hp).2

/-- Witness for C8: cursor `(100, "t1")`, one fetched trade with key
`(101, "t2")`; the cycle's emission satisfies the full emission spec. -/
theorem trade_emission_order_witness :
    TradeEmissionSpec ⟨true, none, some 100, some "t1"⟩ [⟨some 101, "t2"⟩]
      (toLex ((100 : ℚ), "t1")) :=
  trade_emission_order ⟨true, none, some 100, some "t1"⟩ [⟨some 101, "t2"⟩] 100 rfl

lemma parseBatch_filter (batch : List TradeRecord) :
    parseBatch (batch.filter fun t => t.timestamp.isSome) = parseBatch batch := by
  induction batch with
  | nil => rfl
  | cons t bt ih =>
    cases ht : t.timestamp with
    | none =>
      have h1 : (t :: bt).filter (fun t => t.timestamp.isSome) =
          bt.filter (fun t => t.timestamp.isSome) := by
        simp [List.filter_cons, ht]
      have h2 : parseBatch (t :: bt) = parseBatch bt := by
        simp [parseBatch, List.filterMap_cons, ht]
      rw [h1, h2]
      exact ih
    | some ts =>
      have h1 : (t :: bt).filter (fun t => t.timestamp.isSome) =
          t :: bt.filter (fun t => t.timestamp.isSome) := by
        simp [List.filter_cons, ht]
      have h2 : ∀ l, parseBatch (t :: l) = (toLex (ts, t.trade_id), t) :: parseBatch l := by
        intro l
        simp [parseBatch, List.filterMap_cons, ht]
      rw [h1, h2, h2, ih]

lemma mem_parseBatch_isSome {batch : List TradeRecord} {p : EventKey × TradeRecord}
    (hp : p ∈ parseBatch batch) : p.2.timestamp.isSome = true := by
  rcases List.mem_filterMap.mp hp with ⟨t, _, hmap⟩
  rcases Option.map_eq_some'.mp hmap with ⟨ts, hts, hpair⟩
  rw [← hpair]
  simp [hts]

/-- C9: a fetched record whose timestamp fails to parse is silently dropped:
the whole cycle behaves exactly as if the record were not in the batch (state
and emissions unchanged, other records unaffected), and every emitted record
has a parsed timestamp. -/
theorem trade_unparsable_dropped :
    (∀ (st : TradeState) (batch : List TradeRecord),
        _poll_trades st (.ok batch) =
          _poll_trades st (.ok (batch.filter fun t => t.timestamp.isSome))) ∧
    (∀ (st : TradeState) (batch : List TradeRecord),
        ∀ p ∈ (_poll_trades st (.ok batch)).2, p.2.timestamp.isSome = true) := by
  constructor
  · intro st batch
    by_cases hb : batch = []
    · subst hb; rfl
    · by_cases hf : batch.filter (fun t => t.timestamp.isSome) = []
      · have hpb : parseBatch batch = [] := by
          rw [← parseBatch_filter, hf]
          rfl
        rw [hf]
        simp [_poll_trades, hb, hpb]
      · simp only [_poll_trades, hb, hf, parseBatch_filter, if_false]
  · intro st batch p hp
    rcases hres : _poll_trades st (.ok batch) with ⟨st', E⟩
    rw [hres] at hp
    replace hp : p ∈ E := hp
    simp only [_poll_trades] at hres
    split at hres
    · injection hres with hst hE; subst hE; cases hp
    · split at hres
      · injection hres with hst hE; subst hE; cases hp
      · split at hres
        · injection hres with hst hE; subst hE; cases hp
        next last_ts hcur =>
          split at hres
          · split at hres
            · injection hres with hst hE; subst hE; cases hp
            · injection hres with hst hE; subst hE; cases hp
          · injection hres with hst hE
            subst hE
            exact mem_parseBatch_isSome
              ((List.perm_insertionSort keyRel (parseBatch batch)).mem_iff.mp
                (List.mem_of_mem_filter hp))

/-- Witness for C9: a batch holding one unparsable and one valid record; the
valid record is emitted past cursor `(100, "t1")` and indeed has a parsed
timestamp. -/
theorem trade_unparsable_dropped_witness :
    (⟨some 101, "t2"⟩ : TradeRecord).timestamp.isSome = true :=
  trade_unparsable_dropped.2 ⟨true, none, some 100, some "t1"⟩
    [⟨none, "bad"⟩, ⟨some 101, "t2"⟩]
    (toLex ((101 : ℚ), "t2"), ⟨some 101, "t2"⟩) (by decide)

lemma mem_new_orders_snd {S : List OrderRecord} {seen : List String}
    {item : EventKey × OrderRecord}
    (h : item ∈ S.filterMap fun o =>
      if _order_key o ∈ seen then none else some (orderSortKey o, o)) :
    item.2 ∈ S ∧ _order_key item.2 ∉ seen := by
  rcases List.mem_filterMap.mp h with ⟨o, ho, hif⟩
  by_cases hm : _order_key o ∈ seen
  · rw [if_pos hm] at hif; cases hif
  · rw [if_neg hm] at hif
    injection hif with hpair
    rw [← hpair]
    exact ⟨ho, hm⟩

lemma final_keys_mem (S : List OrderRecord) (seen : List String) (s : String) :
    s ∈ S.map _order_key ++
        (List.insertionSort keyRel (S.filterMap fun o =>
          if _order_key o ∈ seen then none else some (orderSortKey o, o))).map
          (fun item => _order_key item.2) ↔
      s ∈ S.map _order_key := by
  rw [List.mem_append]
  constructor
  · rintro (h | h)
    · exact h
    · rcases List.mem_map.mp h with ⟨item, hitem, rfl⟩
      have hmemN := (List.perm_insertionSort keyRel _).mem_iff.mp hitem
      exact List.mem_map_of_mem _ (mem_new_orders_snd hmemN).1
  · exact Or.inl

lemma poll_orders_initialized_seen (st : OrderState) (S : List OrderRecord)
    (h1 : st.initialized = true) (h2 : S ≠ []) :
    (_poll_orders st (.ok S)).1 =
      { st with seen_order_keys := some (sortedDedup (S.map _order_key)) } := by
  rcases hres : _poll_orders st (.ok S) with ⟨st', E⟩
  simp only [_poll_orders] at hres
  split at hres
  next hS => exact absurd hS h2
  next hS =>
    split at hres
    next hinit => rw [h1] at hinit; cases hinit
    next hinit =>
      split at hres
      · injection hres with hst hE
        subst hst
        rfl
      · injection hres with hst hE
        subst hst
        show ({ st with seen_order_keys := some (sortedDedup _) } : OrderState) = _
        rw [sortedDedup_eq_of_mem_iff (final_keys_mem S (st.seen_order_keys.getD []))]

lemma poll_orders_no_new (st : OrderState) (S : List OrderRecord)
    (h1 : st.initialized = true) (h2 : S ≠ [])
    (hall : ∀ o ∈ S, _order_key o ∈ st.seen_order_keys.getD []) :
    _poll_orders st (.ok S) =
      ({ st with seen_order_keys := some (sortedDedup (S.map _order_key)) }, []) := by
  have hnew : (S.filterMap fun o =>
      if _order_key o ∈ st.seen_order_keys.getD [] then none
      else some (orderSortKey o, o)) = [] :=
    List.filterMap_eq_nil_iff.mpr fun o ho => if_pos (hall o ho)
  simp [_poll_orders, h1, h2, hnew]

/-- C4 (amended): for an initialized order channel and a non-empty fetched
batch `S`, one cycle makes `seen_order_keys` exactly the sorted
duplicate-free identity keys of `S` (disappeared keys dropped, all fetched
keys accumulated), and a further cycle on the same `S` emits nothing and
leaves the state fixed — so no member of `S` is reported more than once while
continuously present. -/
theorem order_set_convergence (st : OrderState) (S : List OrderRecord)
    (h1 : st.initialized = true) (h2 : S ≠ []) :
    (_poll_orders st (.ok S)).1.seen_order_keys =
        some (sortedDedup (S.map _order_key)) ∧
    (∀ k, k ∈ (_poll_orders st (.ok S)).1.seen_order_keys.getD [] ↔
        k ∈ S.map _order_key) ∧
    _poll_orders (_poll_orders st (.ok S)).1 (.ok S) =
        ((_poll_orders st (.ok S)).1, []) := by
  have hst1 := poll_orders_initialized_seen st S h1 h2
  refine ⟨by rw [hst1], ?_, ?_⟩
  · intro k
    rw [hst1]
    show k ∈ sortedDedup (S.map _order_key) ↔ k ∈ S.map _order_key
    exact mem_sortedDedup
  · rw [hst1]
    have hall : ∀ o ∈ S, _order_key o ∈
        ({ st with seen_order_keys := some (sortedDedup (S.map _order_key)) } :
          OrderState).seen_order_keys.getD [] := by
      intro o ho
      show _order_key o ∈ sortedDedup (S.map _order_key)
      exact mem_sortedDedup.mpr (List.mem_map_of_mem _ ho)
    exact poll_orders_no_new _ S h1 h2 hall

/-- Witness for C4's amended form at a concrete input: initialized state with
no seen keys, batch of one order; the cycle stores that order's key and a
repeat cycle is a fixed point emitting nothing. -/
theorem order_set_convergence_witness :
    (_poll_orders ⟨true, none, true, none⟩
        (.ok [⟨some "acc", some "conn", some "o1", none, none, none, none, some 100⟩])).1.seen_order_keys =
      some (sortedDedup
        ([(⟨some "acc", some "conn", some "o1", none, none, none, none, some 100⟩ :
          OrderRecord)].map _order_key)) ∧
    (∀ k, k ∈ (_poll_orders ⟨true, none, true, none⟩
        (.ok [⟨some "acc", some "conn", some "o1", none, none, none, none,
          some 100⟩])).1.seen_order_keys.getD [] ↔
      k ∈ [(⟨some "acc", some "conn", some "o1", none, none, none, none, some 100⟩ :
        OrderRecord)].map _order_key) ∧
    _poll_orders (_poll_orders ⟨true, none, true, none⟩
        (.ok [⟨some "acc", some "conn", some "o1", none, none, none, none,
          some 100⟩])).1
        (.ok [⟨some "acc", some "conn", some "o1", none, none, none, none, some 100⟩]) =
      ((_poll_orders ⟨true, none, true, none⟩
        (.ok [⟨some "acc", some "conn", some "o1", none, none, none, none,
          some 100⟩])).1, []) :=
  order_set_convergence ⟨true, none, true, none⟩
    [⟨some "acc", some "conn", some "o1", none, none, none, none, some 100⟩]
    rfl (by decide)

/-- Counterexample to C4 as stated: with the client stabilized on the empty
set `S = []`, the cycle returns early, so `seen_order_keys` keeps the stale
key `"a"` instead of becoming the identity keys of `S` (the empty set). -/
theorem order_set_convergence_counterexample :
    (_poll_orders ⟨true, none, true, some ["a"]⟩
        (.ok ([] : List OrderRecord))).1.seen_order_keys = some ["a"] ∧
    some ["a"] ≠ some (sortedDedup (([] : List OrderRecord).map _order_key)) :=
  ⟨rfl, by decide⟩

/-- C5 (amended): an order poll cycle on a not-yet-initialized channel whose
fetch succeeds with a non-empty batch stores the identity keys of all fetched
orders, marks the channel initialized, and emits nothing. -/
theorem order_first_poll_initializes (st : OrderState) (S : List OrderRecord)
    (h1 : st.initialized = false) (h2 : S ≠ []) :
    _poll_orders st (.ok S) =
      ({ st with initialized := true,
                 seen_order_keys := some (sortedDedup (S.map _order_key)) }, []) := by
  simp [_poll_orders, h1, h2]

/-- Witness for C5's amended form at a concrete input: uninitialized state,
batch of one order. -/
theorem order_first_poll_initializes_witness :
    _poll_orders ⟨true, none, false, none⟩
        (.ok [⟨some "acc", some "conn", some "o1", none, none, none, none, some 100⟩]) =
      (⟨true, none, true, some (sortedDedup
        ([(⟨some "acc", some "conn", some "o1", none, none, none, none, some 100⟩ :
          OrderRecord)].map _order_key))⟩, []) :=
  order_first_poll_initializes ⟨true, none, false, none⟩
    [⟨some "acc", some "conn", some "o1", none, none, none, none, some 100⟩]
    rfl (by decide)

/-- Counterexample to C5 as stated: an uninitialized channel whose fetch
returns an empty batch stays uninitialized (nothing is stored, nothing is
marked), contradicting the claim's "every order poll cycle". -/
theorem order_first_poll_initializes_counterexample :
    _poll_orders ⟨true, none, false, none⟩ (.ok ([] : List OrderRecord)) =
        (⟨true, none, false, none⟩, []) ∧
    (_poll_orders ⟨true, none, false, none⟩
        (.ok ([] : List OrderRecord))).1.initialized = false :=
  ⟨rfl, rfl⟩

end TradeAlerts
